import Mathlib

/-!
Shallow embedding of the constraint-matching core of `guess.py`
(PuPuBirdGuessWordAssistant): pinyin decomposition (`get_pronunciations`),
the backtracking word matcher (`word_matches`), and the word-list
filtering and request construction performed by `GuessGameGUI.search_words`.

Python strings are modelled as `List Char`; Python dicts with integer keys
as association lists (insertion-ordered, as Python dicts are); Python sets
of strings as lists used only through membership, which does not observe
order or duplication.  Fallible code (out-of-range indexing in the
exact-character loop, which would raise `IndexError`) is modelled with
`Option`: `none` stands for an uncaught exception.

The raw pinyin transcriptions of a character come from the external
`pypinyin` library; the embedding is parameterised by a function
`pron : Char → List (List Char)` supplying them.
-/

namespace Guess

/-- One pronunciation of one character, as produced by `get_pronunciations`:
`{"initial": ..., "final": ..., "tone": ...}`. -/
structure Reading where
  initial : List Char
  final : List Char
  tone : List Char
deriving DecidableEq

/-- The ordered initial list of `get_pronunciations` (`initials_list` in the
source), with the multi-letter initials `zh`, `ch`, `sh` before the
single-letter ones. -/
def initials_list : List (List Char) :=
  [['z', 'h'], ['c', 'h'], ['s', 'h'], ['b'], ['p'], ['m'], ['f'], ['d'],
   ['t'], ['n'], ['l'], ['g'], ['k'], ['h'], ['j'], ['q'], ['x'], ['r'],
   ['z'], ['c'], ['s'], ['y'], ['w']]

/-- The tone digits recognised by `if py[-1] in "12345"`. -/
def toneDigits : List Char := ['1', '2', '3', '4', '5']

/-- The tone extracted from a transcription: its last character when that is
a digit `1`..`5`, empty otherwise. -/
def toneOf (py : List Char) : List Char :=
  match py.getLast? with
  | some c => if c ∈ toneDigits then [c] else []
  | none => []

/-- The syllable left after stripping a trailing tone digit
(`syllable = py[:-1]` resp. `syllable = py`). -/
def syllableOf (py : List Char) : List Char :=
  match py.getLast? with
  | some c => if c ∈ toneDigits then py.dropLast else py
  | none => py

/-- The `for ini in initials_list: if syllable.startswith(ini)` loop: the
first listed initial that is a prefix of the syllable, empty if none is. -/
def findInitial : List (List Char) → List Char → List Char
  | [], _ => []
  | ini :: rest, syl => if ini.isPrefixOf syl then ini else findInitial rest syl

/-- Decomposition of one (non-empty) transcription into a `Reading`:
the loop body of `get_pronunciations`. -/
def decomposeOne (py : List Char) : Reading :=
  let tone := toneOf py
  let syllable := syllableOf py
  let initial := findInitial initials_list syllable
  let final := syllable.drop initial.length
  ⟨initial, final, tone⟩

/-- The function `get_pronunciations`, applied to the raw transcription list supplied by
`pypinyin` for one character: iterate over the de-duplicated transcriptions
(`for py in set(py_list)`), skip empty ones (`if not py: continue`), and
decompose the rest.  Python's set iteration order is unspecified; the list
order chosen here is immaterial to every matcher result below. -/
def get_pronunciations (py_list : List (List Char)) : List Reading :=
  (py_list.dedup.filter (fun py => !py.isEmpty)).map decomposeOne

/-- One position's entry of `specific_reqs`: a partial reading pattern.
`none` models an absent dict key.  (In `word_matches` an empty-string value
would also be inert, because `req.get(...)` is tested for truthiness;
`search_words` never stores empty values.) -/
structure PosReq where
  initial : Option (List Char)
  final : Option (List Char)
  tone : Option (List Char)
deriving DecidableEq

/-- Python `if req.get(f) and p[f] != req[f]: ok = False` for one field: the
constraint applies only when present and non-empty. -/
def fieldOk (req : Option (List Char)) (v : List Char) : Bool :=
  match req with
  | none => true
  | some r => r.isEmpty || v == r

/-- A reading passes all three field checks of a positional pattern. -/
def posOk (req : PosReq) (p : Reading) : Bool :=
  fieldOk req.initial p.initial && fieldOk req.final p.final &&
    fieldOk req.tone p.tone

/-- One aggregate phonetic constraint (`ambiguous_reqs` or `exclude_reqs`):
`{"initial": set(...), "final": set(...), "tone": set(...)}`.  Sets are
modelled as lists observed only through membership. -/
structure AggReq where
  initial : List (List Char)
  final : List (List Char)
  tone : List (List Char)
deriving DecidableEq

/-- The per-reading exclusion test of `backtrack`: the branch for reading
`p` is skipped when any of its field values is in `exclude_reqs`. -/
def excluded (exc : AggReq) (p : Reading) : Bool :=
  exc.initial.contains p.initial || exc.final.contains p.final ||
    exc.tone.contains p.tone

/-- The complete-assignment check of `backtrack` at `i == n`: every
must-exist value of each field occurs among the chosen readings. -/
def aggOk (amb : AggReq) (chosen : List Reading) : Bool :=
  amb.initial.all (fun param => (chosen.map Reading.initial).contains param) &&
  amb.final.all (fun param => (chosen.map Reading.final).contains param) &&
  amb.tone.all (fun param => (chosen.map Reading.tone).contains param)

/-- A full constraint request, as assembled by `search_words`. -/
structure Request where
  length : Nat
  specific : List (Nat × PosReq)
  amb : AggReq
  exc : AggReq
  exact : List (Nat × Char)
  ambChars : List Char
  nonChars : List Char
deriving DecidableEq

/-- The `for i, char in exact_char_reqs.items()` loop of `word_matches`:
`some false` on the first mismatch, `none` when `word[i]` would raise
`IndexError`, `some true` when every fixed character matches. -/
def exactCheck (word : List Char) : List (Nat × Char) → Option Bool
  | [] => some true
  | (i, c) :: rest =>
    match word.get? i with
    | none => none
    | some w => if w ≠ c then some false else exactCheck word rest

/-- The candidate readings of the character at position `i`: its
decomposed pronunciations, filtered by the positional pattern when
`i in specific_reqs`. -/
def candidates (pron : Char → List (List Char)) (specific : List (Nat × PosReq))
    (i : Nat) (ch : Char) : List Reading :=
  let poss := get_pronunciations (pron ch)
  match specific.lookup i with
  | some req => poss.filter (posOk req)
  | none => poss

/-- The `possibilities` list of `word_matches` without the early exit:
one candidate list per position, positions numbered from `i`. -/
def possList (pron : Char → List (List Char)) (specific : List (Nat × PosReq)) :
    Nat → List Char → List (List Reading)
  | _, [] => []
  | i, ch :: rest => candidates pron specific i ch :: possList pron specific (i + 1) rest

/-- The `possibilities`-building loop of `word_matches`, with its early
`return False` (modelled as `none`) when some position's candidate list
is empty. -/
def computePoss (pron : Char → List (List Char)) (specific : List (Nat × PosReq)) :
    Nat → List Char → Option (List (List Reading))
  | _, [] => some []
  | i, ch :: rest =>
    if (candidates pron specific i ch).isEmpty then none
    else
      match computePoss pron specific (i + 1) rest with
      | none => none
      | some ps => some (candidates pron specific i ch :: ps)

/-- The recursive `backtrack` of `word_matches`: at each position try each
candidate reading in order, skipping readings that carry an excluded
value; on a complete assignment check the must-exist sets; succeed on the
first satisfying assignment. -/
def backtrack (amb exc : AggReq) : List (List Reading) → List Reading → Bool
  | [], chosen => aggOk amb chosen
  | poss :: rest, chosen =>
    poss.any fun p => !excluded exc p && backtrack amb exc rest (chosen ++ [p])

/-- The matcher `word_matches`: exact-character check, candidate computation with early
failure, backtracking search, then the must-contain / must-exclude
character checks.  `none` models the `IndexError` an out-of-range key of
`exact_char_reqs` would raise. -/
def word_matches? (pron : Char → List (List Char)) (req : Request)
    (word : List Char) : Option Bool :=
  match exactCheck word req.exact with
  | none => none
  | some false => some false
  | some true =>
    match computePoss pron req.specific 0 word with
    | none => some false
    | some poss =>
      if !backtrack req.amb req.exc poss [] then some false
      else if !req.ambChars.all (fun c => word.contains c) then some false
      else if !req.nonChars.all (fun c => !word.contains c) then some false
      else some true

/-- The word loop of `search_words`: each word of the (length-filtered)
list is kept iff `word_matches` returns true; an exception from
`word_matches` aborts the whole search (`none`). -/
def filterWords {α : Type} (pron : Char → List (List Char)) (req : Request) :
    List (List Char × α) → Option (List (List Char × α))
  | [] => some []
  | wt :: rest =>
    match word_matches? pron req wt.1 with
    | none => none
    | some b =>
      match filterWords pron req rest with
      | none => none
      | some res => some (if b then wt :: res else res)

/-- The filtering pipeline of `search_words`: keep words of the requested
length (`[(w, t) for w, t in words if len(w) == length]`), then keep those
accepted by `word_matches`. -/
def search_filter {α : Type} (pron : Char → List (List Char)) (req : Request)
    (words : List (List Char × α)) : Option (List (List Char × α)) :=
  filterWords pron req (words.filter (fun wt => wt.1.length == req.length))

/-- A complete assignment: one reading per position, drawn from that
position's candidate list. -/
inductive Selects : List (List Reading) → List Reading → Prop
  | nil : Selects [] []
  | cons {ps rest p sel} : p ∈ ps → Selects rest sel → Selects (ps :: rest) (p :: sel)

/-- Example pronunciations: a heteronym whose two readings decompose to
zh.ong.4 and ch.ong.2. -/
def pronEx : Char → List (List Char) := fun _ =>
  [['z', 'h', 'o', 'n', 'g', '4'], ['c', 'h', 'o', 'n', 'g', '2']]

/-- The empty aggregate constraint. -/
def emptyAgg : AggReq := ⟨[], [], []⟩

/-- A request demanding tone 2 somewhere, with no other constraint. -/
def reqTone2 : Request :=
  { length := 1, specific := [], amb := ⟨[], [], [['2']]⟩, exc := emptyAgg,
    exact := [], ambChars := [], nonChars := [] }

/-- A request excluding the initials zh and ch, with no other constraint. -/
def reqExcZhCh : Request :=
  { length := 1, specific := [], amb := emptyAgg,
    exc := ⟨[['z', 'h'], ['c', 'h']], [], []⟩,
    exact := [], ambChars := [], nonChars := [] }

/-- Pronunciations of a character with no known transcription. -/
def pronNone : Char → List (List Char) := fun _ => []

/-- The unconstrained request of length 1. -/
def reqFree : Request :=
  { length := 1, specific := [], amb := emptyAgg, exc := emptyAgg,
    exact := [], ambChars := [], nonChars := [] }

/-- The positional filter at position `i` as a predicate on readings:
vacuously true when the position has no pattern. -/
def specOk (specific : List (Nat × PosReq)) (i : Nat) (p : Reading) : Bool :=
  match specific.lookup i with
  | some req => posOk req p
  | none => true

/-- Request `r2` refines `r1`: same target length, and `r2` carries every
constraint of `r1` (and possibly more) — in particular `r2` may be `r1`
plus one additional positional pattern field, must-exist value,
must-exclude value, exact character, must-contain character or
must-exclude character. -/
structure RequestLE (r1 r2 : Request) : Prop where
  len_eq : r1.length = r2.length
  spec_le : ∀ i p, specOk r2.specific i p = true → specOk r1.specific i p = true
  amb_initial_le : ∀ v ∈ r1.amb.initial, v ∈ r2.amb.initial
  amb_final_le : ∀ v ∈ r1.amb.final, v ∈ r2.amb.final
  amb_tone_le : ∀ v ∈ r1.amb.tone, v ∈ r2.amb.tone
  exc_initial_le : ∀ v ∈ r1.exc.initial, v ∈ r2.exc.initial
  exc_final_le : ∀ v ∈ r1.exc.final, v ∈ r2.exc.final
  exc_tone_le : ∀ v ∈ r1.exc.tone, v ∈ r2.exc.tone
  exact_le : ∀ pr ∈ r1.exact, pr ∈ r2.exact
  ambChars_le : ∀ c ∈ r1.ambChars, c ∈ r2.ambChars
  nonChars_le : ∀ c ∈ r1.nonChars, c ∈ r2.nonChars

/-- Pronunciations for the spec's scenario words (重庆 and 从容). -/
def pronSc : Char → List (List Char) := fun c =>
  if c = '重' then [['z', 'h', 'o', 'n', 'g', '4'], ['c', 'h', 'o', 'n', 'g', '2']]
  else if c = '庆' then [['q', 'i', 'n', 'g', '4']]
  else if c = '从' then [['c', 'o', 'n', 'g', '2']]
  else if c = '容' then [['r', 'o', 'n', 'g', '2']]
  else []

/-- The scenario request: length 2, tone 4 at position 0. -/
def reqSc : Request :=
  { length := 2, specific := [(0, ⟨none, none, some ['4']⟩)], amb := emptyAgg,
    exc := emptyAgg, exact := [], ambChars := [], nonChars := [] }

/-- Python `str.strip()` restricted to ASCII whitespace. -/
def pyStrip (s : List Char) : List Char :=
  ((s.dropWhile Char.isWhitespace).reverse.dropWhile Char.isWhitespace).reverse

/-- Python `str.lower()` (ASCII letters; the constraint alphabet of the
tool is ASCII pinyin text and digits). -/
def pyLower (s : List Char) : List Char := s.map Char.toLower

/-- Python `str.split(",")`. -/
def splitCommaAux : List Char → List Char → List (List Char)
  | [], cur => [cur.reverse]
  | c :: rest, cur =>
    if c = ',' then cur.reverse :: splitCommaAux rest []
    else splitCommaAux rest (c :: cur)

/-- Python `str.split(",")` from an empty accumulator. -/
def splitComma (s : List Char) : List (List Char) := splitCommaAux s []

/-- Python `set(x.strip() for x in t.split(",") if x.strip())` guarded by the
truthiness test on `t`, as `search_words` parses each aggregate field. -/
def parseAggValues (t : List Char) : List (List Char) :=
  if t.isEmpty then []
  else ((splitComma t).map pyStrip).filter (fun x => !x.isEmpty)

/-- The raw text of one position's four entry boxes. -/
structure RawPosInput where
  initial : List Char
  final : List Char
  tone : List Char
  exact : List Char
deriving DecidableEq

/-- One positional pattern as `search_words` builds it: strip and
lowercase the initial and final entries, strip the tone entry, include
only non-empty fields, and store no entry at all when all three are
empty. -/
def parsePosReq (rp : RawPosInput) : Option PosReq :=
  let ini := pyLower (pyStrip rp.initial)
  let fin := pyLower (pyStrip rp.final)
  let ton := pyStrip rp.tone
  if ini.isEmpty && fin.isEmpty && ton.isEmpty then none
  else
    some ⟨if ini.isEmpty then none else some ini,
          if fin.isEmpty then none else some fin,
          if ton.isEmpty then none else some ton⟩

/-- The `specific_reqs` dict built over the enumerated position inputs. -/
def buildSpecific : Nat → List RawPosInput → List (Nat × PosReq)
  | _, [] => []
  | i, rp :: rest =>
    match parsePosReq rp with
    | some req => (i, req) :: buildSpecific (i + 1) rest
    | none => buildSpecific (i + 1) rest

/-- The `exact_char_reqs` dict: the first character of each non-empty
stripped exact entry. -/
def buildExact : Nat → List RawPosInput → List (Nat × Char)
  | _, [] => []
  | i, rp :: rest =>
    match (pyStrip rp.exact).head? with
    | some c => (i, c) :: buildExact (i + 1) rest
    | none => buildExact (i + 1) rest

/-- The raw text of every entry box consumed by `search_words`. -/
structure RawInputs where
  length : Nat
  positions : List RawPosInput
  ambInitial : List Char
  ambFinal : List Char
  ambTone : List Char
  excInitial : List Char
  excFinal : List Char
  excTone : List Char
  ambChars : List Char
  nonChars : List Char
deriving DecidableEq

/-- The request `search_words` assembles from the raw entry text: initial
and final constraint text is stripped and lowercased, tone text only
stripped, aggregate fields split on commas, character fields taken as
character sets of the stripped text. -/
def buildRequest (raw : RawInputs) : Request :=
  { length := raw.length
    specific := buildSpecific 0 raw.positions
    amb := ⟨parseAggValues (pyLower (pyStrip raw.ambInitial)),
            parseAggValues (pyLower (pyStrip raw.ambFinal)),
            parseAggValues (pyStrip raw.ambTone)⟩
    exc := ⟨parseAggValues (pyLower (pyStrip raw.excInitial)),
            parseAggValues (pyLower (pyStrip raw.excFinal)),
            parseAggValues (pyStrip raw.excTone)⟩
    exact := buildExact 0 raw.positions
    ambChars := pyStrip raw.ambChars
    nonChars := pyStrip raw.nonChars }

/-- Lowercasing of the initial and final raw entries of one position. -/
def lowerRawPos (rp : RawPosInput) : RawPosInput :=
  { rp with initial := pyLower rp.initial, final := pyLower rp.final }

/-- Lowercasing of every initial and final raw entry of a whole input
set; tone, exact-character and character-set entries are untouched. -/
def lowerRaw (raw : RawInputs) : RawInputs :=
  { raw with
    positions := raw.positions.map lowerRawPos
    ambInitial := pyLower raw.ambInitial
    ambFinal := pyLower raw.ambFinal
    excInitial := pyLower raw.excInitial
    excFinal := pyLower raw.excFinal }

/-- Example pronunciations with the single reading m.ao.2. -/
def pronM : Char → List (List Char) := fun _ => [['m', 'a', 'o', '2']]

/-- A positional request with uppercase initial value M at position 0. -/
def reqUpperM : Request :=
  { length := 1, specific := [(0, ⟨some ['M'], none, none⟩)], amb := emptyAgg,
    exc := emptyAgg, exact := [], ambChars := [], nonChars := [] }

/-- The same positional request with lowercase initial value m. -/
def reqLowerM : Request :=
  { length := 1, specific := [(0, ⟨some ['m'], none, none⟩)], amb := emptyAgg,
    exc := emptyAgg, exact := [], ambChars := [], nonChars := [] }

end Guess

namespace Guess

/-! ### Unfolding equations -/
variable {pron : Char → List (List Char)} {specific : List (Nat × PosReq)}
variable {pron : Char → List (List Char)} {specific : List (Nat × PosReq)}

theorem possList_nil {i : Nat} : possList pron specific i [] = [] := rfl

theorem possList_cons {i : Nat} {ch : Char} {rest : List Char} :
    possList pron specific i (ch :: rest) =
      candidates pron specific i ch :: possList pron specific (i + 1) rest := rfl

theorem computePoss_nil {i : Nat} : computePoss pron specific i [] = some [] := rfl

theorem computePoss_cons {i : Nat} {ch : Char} {rest : List Char} :
    computePoss pron specific i (ch :: rest) =
      if (candidates pron specific i ch).isEmpty then none
      else
        match computePoss pron specific (i + 1) rest with
        | none => none
        | some ps => some (candidates pron specific i ch :: ps) := rfl

theorem backtrack_nil {amb exc : AggReq} {chosen : List Reading} :
    backtrack amb exc [] chosen = aggOk amb chosen := rfl

theorem backtrack_cons {amb exc : AggReq} {ps : List Reading}
    {rest : List (List Reading)} {chosen : List Reading} :
    backtrack amb exc (ps :: rest) chosen =
      ps.any fun p => !excluded exc p && backtrack amb exc rest (chosen ++ [p]) := rfl

/-- The check `exactCheck` succeeds iff every fixed character is present at its
position. -/
theorem exactCheck_eq_some_true (word : List Char) :
    ∀ reqs : List (Nat × Char),
      exactCheck word reqs = some true ↔ ∀ pr ∈ reqs, word.get? pr.1 = some pr.2
  | [] => by simp [exactCheck]
  | (i, c) :: rest => by
    simp only [exactCheck]
    split
    next hw =>
      constructor
      · intro h; exact Option.noConfusion h
      · intro h
        have hx := h (i, c) (List.mem_cons_self _ _)
        rw [hw] at hx
        exact Option.noConfusion hx
    next w hw =>
      split
      next hnc =>
        constructor
        · intro h; exact Option.noConfusion h (fun h => Bool.noConfusion h)
        · intro h
          have hx := h (i, c) (List.mem_cons_self _ _)
          rw [hw] at hx
          exact absurd (Option.some.inj hx) hnc
      next hnc =>
        have hwc : w = c := not_not.mp hnc
        subst hwc
        rw [exactCheck_eq_some_true word rest]
        constructor
        · intro h pr hpr
          rcases List.mem_cons.1 hpr with h1 | h1
          · cases h1; exact hw
          · exact h pr h1
        · intro h pr hpr
          exact h pr (List.mem_cons_of_mem _ hpr)

/-- The check `exactCheck` cannot raise when every fixed position is in range. -/
theorem exactCheck_isSome (word : List Char) :
    ∀ reqs : List (Nat × Char), (∀ pr ∈ reqs, pr.1 < word.length) →
      ∃ b, exactCheck word reqs = some b
  | [] => fun _ => ⟨true, rfl⟩
  | (i, c) :: rest => by
    intro h
    have hi : i < word.length := h (i, c) (List.mem_cons_self _ _)
    simp only [exactCheck]
    split
    next hw =>
      rw [List.get?_eq_none] at hw
      omega
    next w hw =>
      split
      · exact ⟨false, rfl⟩
      · exact exactCheck_isSome word rest fun pr hpr => h pr (List.mem_cons_of_mem _ hpr)

theorem selects_nil_inv {sel : List Reading} (h : Selects [] sel) : sel = [] := by
  cases h; rfl

theorem selects_cons_inv {ps : List Reading} {rest : List (List Reading)}
    {sel : List Reading} (h : Selects (ps :: rest) sel) :
    ∃ p sel', sel = p :: sel' ∧ p ∈ ps ∧ Selects rest sel' := by
  cases h with
  | cons hp hrest => exact ⟨_, _, rfl, hp, hrest⟩

/-- The backtracking search succeeds iff some complete assignment avoids
every excluded value and passes the must-exist check (existential
semantics of `backtrack`). -/
theorem backtrack_iff (amb exc : AggReq) :
    ∀ (poss : List (List Reading)) (acc : List Reading),
      backtrack amb exc poss acc = true ↔
        ∃ sel, Selects poss sel ∧ (∀ p ∈ sel, excluded exc p = false) ∧
          aggOk amb (acc ++ sel) = true
  | [], acc => by
    rw [backtrack_nil]
    constructor
    · intro h
      exact ⟨[], Selects.nil, by simp, by simpa using h⟩
    · rintro ⟨sel, hsel, -, hagg⟩
      rw [selects_nil_inv hsel] at hagg
      simpa using hagg
  | ps :: rest, acc => by
    rw [backtrack_cons]
    simp only [List.any_eq_true, Bool.and_eq_true, Bool.not_eq_true']
    constructor
    · rintro ⟨p, hp, hex, hbt⟩
      rcases (backtrack_iff amb exc rest (acc ++ [p])).1 hbt with ⟨sel', hsel', hex', hagg⟩
      refine ⟨p :: sel', Selects.cons hp hsel', ?_, ?_⟩
      · intro q hq
        rcases List.mem_cons.1 hq with h1 | h1
        · cases h1; exact hex
        · exact hex' q h1
      · simpa [List.append_assoc] using hagg
    · rintro ⟨sel, hsel, hex, hagg⟩
      rcases selects_cons_inv hsel with ⟨p, sel', rfl, hp, hsel'⟩
      refine ⟨p, hp, hex p (List.mem_cons_self _ _), ?_⟩
      refine (backtrack_iff amb exc rest (acc ++ [p])).2 ⟨sel', hsel', ?_, ?_⟩
      · exact fun q hq => hex q (List.mem_cons_of_mem _ hq)
      · simpa [List.append_assoc] using hagg

/-- The computation `computePoss` succeeds exactly on the full `possList`, exactly when no
position's candidate list is empty. -/
theorem computePoss_eq_some_iff :
    ∀ (word : List Char) (i : Nat) (l : List (List Reading)),
      computePoss pron specific i word = some l ↔
        l = possList pron specific i word ∧
          ∀ ps ∈ possList pron specific i word, ps ≠ []
  | [], i, l => by
    rw [computePoss_nil, possList_nil]
    simp [eq_comm]
  | ch :: rest, i, l => by
    rw [computePoss_cons, possList_cons]
    by_cases he : (candidates pron specific i ch).isEmpty
    · rw [if_pos he]
      constructor
      · intro h; exact Option.noConfusion h
      · rintro ⟨-, hall⟩
        exact absurd (List.isEmpty_iff.1 he)
          (hall (candidates pron specific i ch) (List.mem_cons_self _ _))
    · rw [if_neg he]
      cases hc : computePoss pron specific (i + 1) rest with
      | none =>
        constructor
        · intro h; exact Option.noConfusion h
        · rintro ⟨-, hall⟩
          have : computePoss pron specific (i + 1) rest =
              some (possList pron specific (i + 1) rest) :=
            (computePoss_eq_some_iff rest (i + 1) _).2
              ⟨rfl, fun ps hps => hall ps (List.mem_cons_of_mem _ hps)⟩
          rw [hc] at this
          exact Option.noConfusion this
      | some ps =>
        rcases (computePoss_eq_some_iff rest (i + 1) ps).1 hc with ⟨rfl, hall⟩
        constructor
        · intro h
          cases Option.some.inj h
          refine ⟨rfl, ?_⟩
          intro q hq
          rcases List.mem_cons.1 hq with h1 | h1
          · subst h1
            intro hn
            rw [hn] at he
            exact he rfl
          · exact hall q h1
        · rintro ⟨rfl, -⟩
          rfl

/-- The computation `computePoss` fails exactly when some position's candidate list is
empty. -/
theorem computePoss_eq_none_iff (word : List Char) (i : Nat) :
    computePoss pron specific i word = none ↔
      [] ∈ possList pron specific i word := by
  constructor
  · intro h
    by_contra hne
    have hall : ∀ ps ∈ possList pron specific i word, ps ≠ [] := by
      intro ps hps hn
      rw [hn] at hps
      exact hne hps
    have := (@computePoss_eq_some_iff pron specific
      word i (possList pron specific i word)).2 ⟨rfl, hall⟩
    rw [h] at this
    exact Option.noConfusion this
  · intro hmem
    cases hc : computePoss pron specific i word with
    | none => rfl
    | some l =>
      rcases (computePoss_eq_some_iff word i l).1 hc with ⟨-, hall⟩
      exact absurd rfl (hall [] hmem)

/-- The three-way guard at the tail of `word_matches` succeeds iff all
three booleans hold. -/
theorem guard3_eq_some_true (b1 b2 b3 : Bool) :
    ((if !b1 then some false else if !b2 then some false
      else if !b3 then some false else some true) : Option Bool) = some true ↔
      b1 = true ∧ b2 = true ∧ b3 = true := by
  cases b1 <;> cases b2 <;> cases b3 <;> simp

/-- Full characterisation of a successful `word_matches` run: the exact
characters match, no candidate list is empty, some complete assignment
avoids the excluded values and passes the must-exist check, and the
character-level containment checks hold. -/
theorem word_matches_true_iff (pron : Char → List (List Char)) (req : Request)
    (word : List Char) :
    word_matches? pron req word = some true ↔
      exactCheck word req.exact = some true ∧
      (∀ ps ∈ possList pron req.specific 0 word, ps ≠ []) ∧
      (∃ sel, Selects (possList pron req.specific 0 word) sel ∧
        (∀ p ∈ sel, excluded req.exc p = false) ∧ aggOk req.amb sel = true) ∧
      req.ambChars.all (fun c => word.contains c) = true ∧
      req.nonChars.all (fun c => !word.contains c) = true := by
  unfold word_matches?
  cases hec : exactCheck word req.exact with
  | none => simp
  | some b =>
    cases b with
    | false => simp
    | true =>
      simp only [true_and]
      cases hcp : computePoss pron req.specific 0 word with
      | none =>
        rw [computePoss_eq_none_iff] at hcp
        constructor
        · intro h; simp at h
        · rintro ⟨hall, -⟩
          exact absurd rfl (hall [] hcp)
      | some poss =>
        rcases (computePoss_eq_some_iff word 0 poss).1 hcp with ⟨rfl, hall⟩
        have hbt := backtrack_iff req.amb req.exc
          (possList pron req.specific 0 word) []
        simp only [List.nil_append] at hbt
        rw [guard3_eq_some_true, hbt]
        constructor
        · rintro ⟨h1, h2, h3⟩
          exact ⟨hall, h1, h2, h3⟩
        · rintro ⟨-, h⟩
          exact h

/-- The candidate list of the character at position `j` is among the
position candidate lists of the word. -/
theorem candidates_mem_possList :
    ∀ (word : List Char) (i j : Nat) (ch : Char), word.get? j = some ch →
      candidates pron specific (i + j) ch ∈ possList pron specific i word
  | [], _, j, ch => by intro h; simp [List.get?] at h
  | x :: rest, i, 0, ch => by
    intro h
    cases Option.some.inj h
    rw [possList_cons]
    exact List.mem_cons_self _ _
  | x :: rest, i, j + 1, ch => by
    intro h
    rw [possList_cons]
    have := candidates_mem_possList rest (i + 1) j ch h
    rw [show i + 1 + j = i + (j + 1) by omega] at this
    exact List.mem_cons_of_mem _ this

/-- Every candidate list contributes one chosen reading to any complete
assignment. -/
theorem selects_mem {poss : List (List Reading)} {sel : List Reading}
    (h : Selects poss sel) :
    ∀ ps ∈ poss, ∃ p, p ∈ sel ∧ p ∈ ps := by
  induction h with
  | nil => intro ps hps; simp at hps
  | cons hp hrest ih =>
    intro ps hps
    rcases List.mem_cons.1 hps with h1 | h1
    · subst h1
      exact ⟨_, List.mem_cons_self _ _, hp⟩
    · rcases ih ps h1 with ⟨q, hq1, hq2⟩
      exact ⟨q, List.mem_cons_of_mem _ hq1, hq2⟩

/-- Excluded readings never extend a branch: the search result is the same
when each position's candidate list is first purged of excluded readings. -/
theorem backtrack_filter_excluded (amb exc : AggReq) :
    ∀ (poss : List (List Reading)) (acc : List Reading),
      backtrack amb exc poss acc =
        backtrack amb exc
          (poss.map (List.filter (fun p => !excluded exc p))) acc
  | [], acc => rfl
  | ps :: rest, acc => by
    rw [List.map_cons, backtrack_cons, backtrack_cons]
    induction ps with
    | nil => rfl
    | cons p ps' ih =>
      rw [List.any_cons, List.filter_cons]
      cases he : excluded exc p with
      | true =>
        simp only [he, Bool.not_true, Bool.false_and, Bool.false_or,
          ite_false]
        exact ih
      | false =>
        simp only [he, Bool.not_false, Bool.true_and, ite_true,
          List.any_cons]
        rw [ih, backtrack_filter_excluded amb exc rest (acc ++ [p])]

/-- The three-way guard at the tail of `word_matches` always yields a
boolean result. -/
theorem guard3_eq_some (b1 b2 b3 : Bool) :
    ((if !b1 then some false else if !b2 then some false
      else if !b3 then some false else some true) : Option Bool) =
      some (b1 && b2 && b3) := by
  cases b1 <;> cases b2 <;> cases b3 <;> rfl

/-- The matcher `word_matches` terminates normally whenever every fixed-character
position is inside the word. -/
theorem word_matches_isSome (pron : Char → List (List Char)) (req : Request)
    (word : List Char) (hinr : ∀ pr ∈ req.exact, pr.1 < word.length) :
    ∃ b, word_matches? pron req word = some b := by
  rcases exactCheck_isSome word req.exact hinr with ⟨b, hb⟩
  unfold word_matches?
  rw [hb]
  cases b with
  | false => exact ⟨false, rfl⟩
  | true =>
    cases hcp : computePoss pron req.specific 0 word with
    | none => exact ⟨false, rfl⟩
    | some poss => exact ⟨_, guard3_eq_some _ _ _⟩

/-- C1: for a word each of whose positions has a non-empty filtered
candidate-reading set (and whose character-level checks pass),
`word_matches` reports success iff at least one assignment of exactly one
reading per character, drawn from the pre-filtered candidate sets, avoids
every must-exclude value and witnesses every must-exist value in each
field — existential semantics: one failed complete assignment does not
reject the word while other assignments remain. -/
theorem c1_phonetic_existential (pron : Char → List (List Char))
    (req : Request) (word : List Char)
    (hex : exactCheck word req.exact = some true)
    (hamb : req.ambChars.all (fun c => word.contains c) = true)
    (hnon : req.nonChars.all (fun c => !word.contains c) = true)
    (hne : ∀ ps ∈ possList pron req.specific 0 word, ps ≠ []) :
    word_matches? pron req word = some true ↔
      ∃ sel, Selects (possList pron req.specific 0 word) sel ∧
        (∀ p ∈ sel, excluded req.exc p = false) ∧
        aggOk req.amb sel = true := by
  rw [word_matches_true_iff]
  constructor
  · rintro ⟨-, -, h, -, -⟩
    exact h
  · intro h
    exact ⟨hex, hne, h, hamb, hnon⟩

/-- C1 witness: the one-character word whose character has exactly the
readings zh.ong.4 and ch.ong.2 is accepted by a request with must-exist
tone set {2} and no other constraint. -/
theorem c1_witness : word_matches? pronEx reqTone2 ['x'] = some true := by
  refine (c1_phonetic_existential pronEx reqTone2 ['x'] (by decide) (by decide)
    (by decide) (by decide)).mpr
    ⟨[⟨['c', 'h'], ['o', 'n', 'g'], ['2']⟩], ?_, by decide, by decide⟩
  have hp : possList pronEx reqTone2.specific 0 ['x'] =
      [[⟨['z', 'h'], ['o', 'n', 'g'], ['4']⟩,
        ⟨['c', 'h'], ['o', 'n', 'g'], ['2']⟩]] := by decide
  rw [hp]
  exact Selects.cons (by decide) Selects.nil

/-- C2: a must-exclude value carried by every candidate reading of some
position forces `word_matches` to return false; and the exclude check
prunes locally before descending — purging excluded readings from every
position's candidate list leaves the search result unchanged, so a branch
whose reading carries an excluded value is never extended. -/
theorem c2_exclude_rejects :
    (∀ (pron : Char → List (List Char)) (req : Request) (word : List Char),
      (∀ pr ∈ req.exact, pr.1 < word.length) →
      (∃ i ch, word.get? i = some ch ∧
        ∀ p ∈ candidates pron req.specific i ch, excluded req.exc p = true) →
      word_matches? pron req word = some false) ∧
    (∀ (amb exc : AggReq) (poss : List (List Reading)) (acc : List Reading),
      backtrack amb exc poss acc =
        backtrack amb exc
          (poss.map (List.filter (fun p => !excluded exc p))) acc) := by
  constructor
  · rintro pron req word hinr ⟨i, ch, hget, hexcl⟩
    rcases word_matches_isSome pron req word hinr with ⟨b, hb⟩
    cases b with
    | false => exact hb
    | true =>
      exfalso
      rcases (word_matches_true_iff pron req word).1 hb with
        ⟨-, -, ⟨sel, hsel, hexall, -⟩, -, -⟩
      have hmem : candidates pron req.specific i ch ∈
          possList pron req.specific 0 word := by
        have := @candidates_mem_possList pron req.specific word 0 i ch hget
        rwa [Nat.zero_add] at this
      rcases selects_mem hsel _ hmem with ⟨p, hp1, hp2⟩
      exact Bool.noConfusion ((hexall p hp1).symm.trans (hexcl p hp2))
  · exact fun amb exc => backtrack_filter_excluded amb exc

/-- C2 witness: a one-character word whose character's readings carry only
the initials zh and ch is rejected by a request excluding both. -/
theorem c2_witness : word_matches? pronEx reqExcZhCh ['x'] = some false :=
  c2_exclude_rejects.1 pronEx reqExcZhCh ['x'] (by decide)
    ⟨0, 'x', rfl, by decide⟩

/-- C3: if some position's filtered candidate-reading set is empty —
including a character with no readings at all — `word_matches` returns
false, and already the candidate-computation stage fails, so the
backtracking search is never entered. -/
theorem c3_empty_candidates_reject (pron : Char → List (List Char))
    (req : Request) (word : List Char)
    (hinr : ∀ pr ∈ req.exact, pr.1 < word.length)
    (hempty : ∃ i ch, word.get? i = some ch ∧
      candidates pron req.specific i ch = []) :
    word_matches? pron req word = some false ∧
      computePoss pron req.specific 0 word = none := by
  rcases hempty with ⟨i, ch, hget, hcand⟩
  have hmem : [] ∈ possList pron req.specific 0 word := by
    have := @candidates_mem_possList pron req.specific word 0 i ch hget
    rwa [Nat.zero_add, hcand] at this
  refine ⟨?_, (computePoss_eq_none_iff word 0).2 hmem⟩
  rcases word_matches_isSome pron req word hinr with ⟨b, hb⟩
  cases b with
  | false => exact hb
  | true =>
    rcases (word_matches_true_iff pron req word).1 hb with ⟨-, hall, -, -, -⟩
    exact absurd rfl (hall [] hmem)

/-- C3 witness: a character with no readings is rejected even by the
unconstrained request, and the candidate stage already fails. -/
theorem c3_witness :
    word_matches? pronNone reqFree ['x'] = some false ∧
      computePoss pronNone reqFree.specific 0 ['x'] = none :=
  c3_empty_candidates_reject pronNone reqFree ['x'] (by decide)
    ⟨0, 'x', rfl, by decide⟩

theorem candidates_eq_filter (pron : Char → List (List Char))
    (specific : List (Nat × PosReq)) (i : Nat) (ch : Char) :
    candidates pron specific i ch =
      (get_pronunciations (pron ch)).filter (specOk specific i) := by
  unfold candidates specOk
  cases specific.lookup i with
  | none => simp
  | some req => rfl

/-- Shrinking the positional filters pointwise shrinks each candidate
list. -/
theorem candidates_mono {pron : Char → List (List Char)}
    {sp1 sp2 : List (Nat × PosReq)}
    (hle : ∀ i p, specOk sp2 i p = true → specOk sp1 i p = true)
    {i : Nat} {ch : Char} {p : Reading}
    (hp : p ∈ candidates pron sp2 i ch) : p ∈ candidates pron sp1 i ch := by
  rw [candidates_eq_filter] at hp ⊢
  rcases List.mem_filter.1 hp with ⟨hmem, hok⟩
  exact List.mem_filter.2 ⟨hmem, hle i p hok⟩

/-- A complete assignment over the stricter candidate lists is also one
over the looser candidate lists. -/
theorem selects_possList_mono {pron : Char → List (List Char)}
    {sp1 sp2 : List (Nat × PosReq)}
    (hle : ∀ i p, specOk sp2 i p = true → specOk sp1 i p = true) :
    ∀ (word : List Char) (i : Nat) (sel : List Reading),
      Selects (possList pron sp2 i word) sel →
        Selects (possList pron sp1 i word) sel
  | [], i, sel => by
    rw [possList_nil, possList_nil]
    exact id
  | ch :: rest, i, sel => by
    rw [possList_cons, possList_cons]
    intro h
    rcases selects_cons_inv h with ⟨p, sel', rfl, hp, hsel'⟩
    exact Selects.cons (candidates_mono hle hp)
      (selects_possList_mono hle rest (i + 1) sel' hsel')

/-- If no stricter candidate list is empty, no looser one is either. -/
theorem possList_ne_nil_mono {pron : Char → List (List Char)}
    {sp1 sp2 : List (Nat × PosReq)}
    (hle : ∀ i p, specOk sp2 i p = true → specOk sp1 i p = true) :
    ∀ (word : List Char) (i : Nat),
      (∀ ps ∈ possList pron sp2 i word, ps ≠ []) →
        ∀ ps ∈ possList pron sp1 i word, ps ≠ []
  | [], i => by
    intro _ ps hps
    rw [possList_nil] at hps
    exact absurd hps (List.not_mem_nil ps)
  | ch :: rest, i => by
    intro h2 ps hps
    rw [possList_cons] at hps
    rcases List.mem_cons.1 hps with h1 | h1
    · subst h1
      have hne2 : candidates pron sp2 i ch ≠ [] :=
        h2 _ (by rw [possList_cons]; exact List.mem_cons_self _ _)
      rcases List.exists_mem_of_ne_nil _ hne2 with ⟨p, hp⟩
      intro hn
      have hp1 : p ∈ candidates pron sp1 i ch := candidates_mono hle hp
      rw [hn] at hp1
      exact absurd hp1 (List.not_mem_nil p)
    · exact possList_ne_nil_mono hle rest (i + 1)
        (fun qs hqs => h2 qs (by rw [possList_cons]; exact List.mem_cons_of_mem _ hqs))
        ps h1

/-- Growing the must-exist sets strengthens the aggregate check. -/
theorem aggOk_mono {a1 a2 : AggReq}
    (hi : ∀ v ∈ a1.initial, v ∈ a2.initial)
    (hf : ∀ v ∈ a1.final, v ∈ a2.final)
    (ht : ∀ v ∈ a1.tone, v ∈ a2.tone)
    {chosen : List Reading} (h : aggOk a2 chosen = true) :
    aggOk a1 chosen = true := by
  unfold aggOk at h ⊢
  simp only [Bool.and_eq_true, List.all_eq_true] at h ⊢
  exact ⟨⟨fun v hv => h.1.1 v (hi v hv), fun v hv => h.1.2 v (hf v hv)⟩,
    fun v hv => h.2 v (ht v hv)⟩

/-- Growing the must-exclude sets excludes more readings. -/
theorem excluded_mono {e1 e2 : AggReq}
    (hi : ∀ v ∈ e1.initial, v ∈ e2.initial)
    (hf : ∀ v ∈ e1.final, v ∈ e2.final)
    (ht : ∀ v ∈ e1.tone, v ∈ e2.tone)
    {p : Reading} (h : excluded e1 p = true) : excluded e2 p = true := by
  unfold excluded List.contains at h ⊢
  simp only [Bool.or_eq_true, List.elem_iff] at h ⊢
  rcases h with (h | h) | h
  · exact Or.inl (Or.inl (hi _ h))
  · exact Or.inl (Or.inr (hf _ h))
  · exact Or.inr (ht _ h)

/-- C4: adding constraints never accepts new words — every word accepted
by the stronger request `r2` (equal to `r1` plus additional constraints of
any kind, at the same target length) is accepted by the weaker `r1`, so
the match set of `r2` is a subset of the match set of `r1`. -/
theorem c4_monotone (pron : Char → List (List Char)) (r1 r2 : Request)
    (word : List Char) (hle : RequestLE r1 r2)
    (h2 : word_matches? pron r2 word = some true) :
    word_matches? pron r1 word = some true := by
  rcases (word_matches_true_iff pron r2 word).1 h2 with
    ⟨hex2, hne2, ⟨sel, hsel, hexc, hagg⟩, hamb2, hnon2⟩
  refine (word_matches_true_iff pron r1 word).2 ⟨?_, ?_, ⟨sel, ?_, ?_, ?_⟩, ?_, ?_⟩
  · rw [exactCheck_eq_some_true] at hex2 ⊢
    exact fun pr hpr => hex2 pr (hle.exact_le pr hpr)
  · exact possList_ne_nil_mono hle.spec_le word 0 hne2
  · exact selects_possList_mono hle.spec_le word 0 sel hsel
  · intro p hp
    cases he : excluded r1.exc p with
    | false => rfl
    | true =>
      have h2e := excluded_mono hle.exc_initial_le hle.exc_final_le
        hle.exc_tone_le he
      rw [hexc p hp] at h2e
      exact Bool.noConfusion h2e
  · exact aggOk_mono hle.amb_initial_le hle.amb_final_le hle.amb_tone_le hagg
  · rw [List.all_eq_true] at hamb2 ⊢
    exact fun c hc => hamb2 c (hle.ambChars_le c hc)
  · rw [List.all_eq_true] at hnon2 ⊢
    exact fun c hc => hnon2 c (hle.nonChars_le c hc)

/-- C4 witness: the unconstrained request accepts the heteronym accepted
by the stricter request that additionally demands tone 2 somewhere. -/
theorem c4_witness : word_matches? pronEx reqFree ['x'] = some true :=
  c4_monotone pronEx reqFree reqTone2 ['x']
    ⟨rfl, fun _ _ h => h,
     fun v hv => absurd hv (List.not_mem_nil v),
     fun v hv => absurd hv (List.not_mem_nil v),
     fun v hv => absurd hv (List.not_mem_nil v),
     fun v hv => absurd hv (List.not_mem_nil v),
     fun v hv => absurd hv (List.not_mem_nil v),
     fun v hv => absurd hv (List.not_mem_nil v),
     fun pr hpr => absurd hpr (List.not_mem_nil pr),
     fun c hc => absurd hc (List.not_mem_nil c),
     fun c hc => absurd hc (List.not_mem_nil c)⟩
    (by decide)

/-- When every word of the list evaluates without error, the word loop is
the plain stable filter on a successful match. -/
theorem filterWords_eq_filter {α : Type} (pron : Char → List (List Char))
    (req : Request) :
    ∀ l : List (List Char × α),
      (∀ wt ∈ l, ∃ b, word_matches? pron req wt.1 = some b) →
      filterWords pron req l =
        some (l.filter (fun wt => word_matches? pron req wt.1 == some true))
  | [] => fun _ => rfl
  | wt :: rest => by
    intro h
    rcases h wt (List.mem_cons_self _ _) with ⟨b, hb⟩
    have hrest := filterWords_eq_filter pron req rest
      (fun q hq => h q (List.mem_cons_of_mem _ hq))
    simp only [filterWords, hb, hrest, List.filter_cons]
    cases b with
    | true => simp
    | false => simp

/-- Every entry kept by the word loop was accepted by the matcher and
comes from the input list. -/
theorem filterWords_sound {α : Type} (pron : Char → List (List Char))
    (req : Request) :
    ∀ (l res : List (List Char × α)), filterWords pron req l = some res →
      ∀ wt ∈ res, word_matches? pron req wt.1 = some true ∧ wt ∈ l
  | [], res => by
    intro h
    cases Option.some.inj h
    intro wt hwt
    exact absurd hwt (List.not_mem_nil wt)
  | x :: rest, res => by
    intro h wt hwt
    simp only [filterWords] at h
    cases hb : word_matches? pron req x.1 with
    | none => rw [hb] at h; exact Option.noConfusion h
    | some b =>
      rw [hb] at h
      cases hr : filterWords pron req rest with
      | none => rw [hr] at h; simp at h
      | some res' =>
        rw [hr] at h
        simp only at h
        cases Option.some.inj h
        have ih := filterWords_sound pron req rest res' hr
        cases b with
        | true =>
          rcases List.mem_cons.1 hwt with h1 | h1
          · subst h1
            exact ⟨hb, List.mem_cons_self _ _⟩
          · rcases ih wt h1 with ⟨ha, hm⟩
            exact ⟨ha, List.mem_cons_of_mem _ hm⟩
        | false =>
          rcases ih wt hwt with ⟨ha, hm⟩
          exact ⟨ha, List.mem_cons_of_mem _ hm⟩

/-- A list every entry of which the matcher accepts is returned whole. -/
theorem filterWords_all_true {α : Type} (pron : Char → List (List Char))
    (req : Request) :
    ∀ l : List (List Char × α),
      (∀ wt ∈ l, word_matches? pron req wt.1 = some true) →
      filterWords pron req l = some l
  | [] => fun _ => rfl
  | wt :: rest => by
    intro h
    have hrest := filterWords_all_true pron req rest
      (fun q hq => h q (List.mem_cons_of_mem _ hq))
    simp only [filterWords, h wt (List.mem_cons_self _ _), hrest]
    simp

/-- C5: the candidate filter returns exactly the input entries whose word
has the requested character count and which the matcher accepts, in input
order (stable, no sorting, no deduplication), and an empty result is an
ordinary value, not an error; consequently every returned word's length
equals the requested length. -/
theorem c5_filter_exact {α : Type} (pron : Char → List (List Char))
    (req : Request) (words : List (List Char × α))
    (hinr : ∀ pr ∈ req.exact, pr.1 < req.length) :
    search_filter pron req words =
      some (words.filter (fun wt => wt.1.length == req.length &&
        (word_matches? pron req wt.1 == some true))) ∧
    ∀ res, search_filter pron req words = some res →
      ∀ wt ∈ res, wt.1.length = req.length := by
  have h1 : search_filter pron req words =
      some ((words.filter (fun wt => wt.1.length == req.length)).filter
        (fun wt => word_matches? pron req wt.1 == some true)) := by
    unfold search_filter
    apply filterWords_eq_filter
    intro wt hwt
    have hlen : wt.1.length = req.length := by
      rcases List.mem_filter.1 hwt with ⟨-, hbeq⟩
      exact eq_of_beq hbeq
    exact word_matches_isSome pron req wt.1
      (fun pr hpr => by rw [hlen]; exact hinr pr hpr)
  constructor
  · rw [h1, List.filter_filter]
    refine congrArg some (List.filter_congr ?_)
    intro wt _
    exact Bool.and_comm _ _
  · intro res hres wt hwt
    rw [h1] at hres
    cases Option.some.inj hres
    rcases List.mem_filter.1 hwt with ⟨hmem, -⟩
    rcases List.mem_filter.1 hmem with ⟨-, hbeq⟩
    exact eq_of_beq hbeq

/-- C5 witness: the spec scenario — among 重庆 and 从容 with a tone-4
pattern at position 0, exactly 重庆 is returned, in order, with its
length equal to the requested length. -/
theorem c5_witness :
    search_filter pronSc reqSc [(['重', '庆'], 0), (['从', '容'], 1)] =
      some [(['重', '庆'], 0)] := by
  have h := (c5_filter_exact pronSc reqSc [(['重', '庆'], 0), (['从', '容'], 1)]
    (by decide)).1
  rw [h]
  decide

/-- C9: filtering is idempotent and stateless — re-running the filter on
its own successful output returns that output unchanged (matching mutates
neither the words nor the request, so every kept entry is kept again). -/
theorem c9_idempotent {α : Type} (pron : Char → List (List Char))
    (req : Request) (words res : List (List Char × α))
    (h : search_filter pron req words = some res) :
    search_filter pron req res = some res := by
  unfold search_filter at h ⊢
  have hsound := filterWords_sound pron req
    (words.filter (fun wt => wt.1.length == req.length)) res h
  have hres : res.filter (fun wt => wt.1.length == req.length) = res := by
    rw [List.filter_eq_self]
    intro wt hwt
    rcases hsound wt hwt with ⟨-, hmem⟩
    exact (List.mem_filter.1 hmem).2
  rw [hres]
  exact filterWords_all_true pron req res (fun wt hwt => (hsound wt hwt).1)

/-- C9 witness: re-filtering the spec-scenario output reproduces it. -/
theorem c9_witness :
    search_filter pronSc reqSc [(['重', '庆'], 0)] = some [(['重', '庆'], 0)] :=
  c9_idempotent pronSc reqSc [(['重', '庆'], 0), (['从', '容'], 1)]
    [(['重', '庆'], 0)] (by decide)

/-- C10: the matcher is a total function on words whose constrained
positions are in range — the backtracking recursion is structural on the
remaining positions and each position iterates a finite candidate list,
so `word_matches` returns a boolean whenever every exact-character
position and every positional-pattern key is below the word length. -/
theorem c10_total (pron : Char → List (List Char)) (req : Request)
    (word : List Char)
    (hex : ∀ pr ∈ req.exact, pr.1 < word.length)
    (_hsp : ∀ pr ∈ req.specific, pr.1 < word.length) :
    ∃ b, word_matches? pron req word = some b :=
  word_matches_isSome pron req word hex

/-- C10 witness: totality at a concrete word and request. -/
theorem c10_witness : ∃ b, word_matches? pronEx reqTone2 ['x'] = some b :=
  c10_total pronEx reqTone2 ['x'] (by decide) (by decide)

/-- A boolean prefix splits the larger list into itself and the
corresponding drop. -/
theorem isPrefixOf_append_drop :
    ∀ a b : List Char, a.isPrefixOf b = true → a ++ b.drop a.length = b
  | [], b => fun _ => rfl
  | x :: a, [] => fun h => by simp [List.isPrefixOf] at h
  | x :: a, y :: b => by
    intro h
    simp only [List.isPrefixOf, Bool.and_eq_true, beq_iff_eq] at h
    rcases h with ⟨rfl, h2⟩
    simp only [List.length_cons, List.drop_succ_cons, List.cons_append,
      List.cons.injEq, true_and]
    exact isPrefixOf_append_drop a b h2

/-- The loop `findInitial` returns the empty initial or a listed prefix of the
syllable. -/
theorem findInitial_spec :
    ∀ (l : List (List Char)) (syl : List Char),
      findInitial l syl = [] ∨
        (findInitial l syl ∈ l ∧ (findInitial l syl).isPrefixOf syl = true)
  | [], _ => Or.inl rfl
  | ini :: rest, syl => by
    unfold findInitial
    by_cases h : ini.isPrefixOf syl = true
    · rw [if_pos h]
      exact Or.inr ⟨List.mem_cons_self _ _, h⟩
    · rw [if_neg h]
      rcases findInitial_spec rest syl with h1 | ⟨h1, h2⟩
      · exact Or.inl h1
      · exact Or.inr ⟨List.mem_cons_of_mem _ h1, h2⟩

/-- When no listed initial is a prefix, `findInitial` is empty. -/
theorem findInitial_eq_nil :
    ∀ (l : List (List Char)) (syl : List Char),
      (∀ ini ∈ l, ¬ini.isPrefixOf syl = true) → findInitial l syl = []
  | [], _ => fun _ => rfl
  | ini :: rest, syl => by
    intro h
    unfold findInitial
    rw [if_neg (h ini (List.mem_cons_self _ _))]
    exact findInitial_eq_nil rest syl
      (fun i hi => h i (List.mem_cons_of_mem _ hi))

/-- First match in priority order wins. -/
theorem findInitial_first :
    ∀ (l1 : List (List Char)) (ini : List Char) (l2 : List (List Char))
      (syl : List Char),
      (∀ pre ∈ l1, ¬pre.isPrefixOf syl = true) → ini.isPrefixOf syl = true →
      findInitial (l1 ++ ini :: l2) syl = ini
  | [], ini, l2, syl => by
    intro _ hini
    rw [List.nil_append]
    unfold findInitial
    rw [if_pos hini]
  | pre :: l1, ini, l2, syl => by
    intro h hini
    rw [List.cons_append]
    unfold findInitial
    rw [if_neg (h pre (List.mem_cons_self _ _))]
    exact findInitial_first l1 ini l2 syl
      (fun q hq => h q (List.mem_cons_of_mem _ hq)) hini

theorem decomposeOne_initial (py : List Char) :
    (decomposeOne py).initial = findInitial initials_list (syllableOf py) := rfl

theorem decomposeOne_final (py : List Char) :
    (decomposeOne py).final =
      (syllableOf py).drop (findInitial initials_list (syllableOf py)).length := rfl

theorem decomposeOne_tone (py : List Char) :
    (decomposeOne py).tone = toneOf py := rfl

/-- The initial and the final of a decomposed reading reassemble the
tone-stripped syllable. -/
theorem decomposeOne_initial_append_final (py : List Char) :
    (decomposeOne py).initial ++ (decomposeOne py).final = syllableOf py := by
  rw [decomposeOne_initial, decomposeOne_final]
  rcases findInitial_spec initials_list (syllableOf py) with h | ⟨-, h⟩
  · rw [h]
    simp
  · exact isPrefixOf_append_drop _ _ h

/-- C6: decomposition of a non-empty transcription: a trailing digit 1–5
becomes the tone and is stripped, otherwise the tone is empty (neutral);
the initial and the final partition the remaining syllable; the initial is
the first prefix-matching entry of the ordered initials list, so a
syllable starting with zh always gets initial zh (never z); and when no
listed initial matches, the initial is empty and the final is the entire
syllable. -/
theorem c6_decompose (py : List Char) (c : Char)
    (hlast : py.getLast? = some c) :
    (c ∈ toneDigits →
      (decomposeOne py).tone = [c] ∧
      (decomposeOne py).initial ++ (decomposeOne py).final = py.dropLast) ∧
    (c ∉ toneDigits →
      (decomposeOne py).tone = [] ∧
      (decomposeOne py).initial ++ (decomposeOne py).final = py) ∧
    (∀ rest, syllableOf py = 'z' :: 'h' :: rest →
      (decomposeOne py).initial = ['z', 'h']) ∧
    ((∀ ini ∈ initials_list, ¬ini.isPrefixOf (syllableOf py) = true) →
      (decomposeOne py).initial = [] ∧
      (decomposeOne py).final = syllableOf py) ∧
    (∀ l1 ini l2, initials_list = l1 ++ ini :: l2 →
      (∀ pre ∈ l1, ¬pre.isPrefixOf (syllableOf py) = true) →
      ini.isPrefixOf (syllableOf py) = true →
      (decomposeOne py).initial = ini) := by
  refine ⟨?_, ?_, ?_, ?_, ?_⟩
  · intro hc
    constructor
    · rw [decomposeOne_tone]
      unfold toneOf
      rw [hlast]
      show (if c ∈ toneDigits then [c] else []) = [c]
      rw [if_pos hc]
    · rw [decomposeOne_initial_append_final]
      unfold syllableOf
      rw [hlast]
      show (if c ∈ toneDigits then py.dropLast else py) = py.dropLast
      rw [if_pos hc]
  · intro hc
    constructor
    · rw [decomposeOne_tone]
      unfold toneOf
      rw [hlast]
      show (if c ∈ toneDigits then [c] else []) = []
      rw [if_neg hc]
    · rw [decomposeOne_initial_append_final]
      unfold syllableOf
      rw [hlast]
      show (if c ∈ toneDigits then py.dropLast else py) = py
      rw [if_neg hc]
  · intro rest hr
    rw [decomposeOne_initial, hr,
      show initials_list = [] ++ ['z', 'h'] :: initials_list.tail from rfl]
    exact findInitial_first [] ['z', 'h'] initials_list.tail _
      (fun pre hp => absurd hp (List.not_mem_nil pre))
      (by simp [List.isPrefixOf])
  · intro hno
    have hini : findInitial initials_list (syllableOf py) = [] :=
      findInitial_eq_nil initials_list (syllableOf py) hno
    rw [decomposeOne_initial, decomposeOne_final, hini]
    simp
  · intro l1 ini l2 heq hpre hini
    rw [decomposeOne_initial, heq]
    exact findInitial_first l1 ini l2 _ hpre hini

/-- C6 witness: the transcription zhong4 decomposes to tone 4, initial zh
(not z), and final ong. -/
theorem c6_witness :
    (decomposeOne ['z', 'h', 'o', 'n', 'g', '4']).tone = ['4'] ∧
    (decomposeOne ['z', 'h', 'o', 'n', 'g', '4']).initial = ['z', 'h'] := by
  have h := c6_decompose ['z', 'h', 'o', 'n', 'g', '4'] '4' rfl
  exact ⟨(h.1 (by decide)).1, h.2.2.1 ['o', 'n', 'g'] (by decide)⟩

/-- C7 counterexample: the claim "every produced Reading has a non-empty
final" fails — the transcription m2 (a real pypinyin output, e.g. for 呣)
decomposes to initial m, final empty, tone 2. -/
theorem c7_counterexample :
    ∃ r ∈ get_pronunciations [['m', '2']], r.final = [] := by decide

/-- C7 (amended): decomposition is total, skips empty transcriptions, and
every produced reading is the decomposition of one of the input
transcriptions with the initial and the final exactly partitioning the
tone-stripped syllable — but the final may be empty when the initial
consumes the whole syllable (e.g. the transcription m2). -/
theorem c7_amended (py_list : List (List Char)) :
    ∀ r ∈ get_pronunciations py_list, ∃ py, py ∈ py_list ∧ py ≠ [] ∧
      r = decomposeOne py ∧ r.initial ++ r.final = syllableOf py := by
  intro r hr
  unfold get_pronunciations at hr
  rcases List.mem_map.1 hr with ⟨py, hpy, rfl⟩
  rcases List.mem_filter.1 hpy with ⟨hmem, hne⟩
  refine ⟨py, List.mem_dedup.1 hmem, ?_, rfl,
    decomposeOne_initial_append_final py⟩
  intro hnil
  rw [hnil] at hne
  simp at hne

/-- C7 witness: the m2 reading arises from the non-empty transcription m2
whose syllable is m. -/
theorem c7_witness :
    ∃ py, py ∈ [['m', '2']] ∧ py ≠ [] ∧
      (⟨['m'], [], ['2']⟩ : Reading) = decomposeOne py ∧
      (⟨['m'], [], ['2']⟩ : Reading).initial ++
        (⟨['m'], [], ['2']⟩ : Reading).final = syllableOf py :=
  c7_amended [['m', '2']] ⟨['m'], [], ['2']⟩ (by decide)

/-- Characters with code point at least 33 are not ASCII whitespace. -/
theorem isWhitespace_eq_false_of_ge (c : Char) (h : 33 ≤ c.toNat) :
    c.isWhitespace = false := by
  have hs : c ≠ ' ' := by rintro rfl; revert h; decide
  have ht : c ≠ '\t' := by rintro rfl; revert h; decide
  have hr : c ≠ '\r' := by rintro rfl; revert h; decide
  have hn : c ≠ '\n' := by rintro rfl; revert h; decide
  simp [Char.isWhitespace, hs, ht, hr, hn]

/-- Lowercasing a basic latin capital lands among the lowercase letters. -/
theorem toLower_upper_range (c : Char) (h1 : 65 ≤ c.toNat)
    (h2 : c.toNat ≤ 90) :
    97 ≤ (Char.toLower c).toNat ∧ (Char.toLower c).toNat ≤ 122 := by
  have he : Char.toLower c = Char.ofNat (c.toNat + 32) := by
    simp only [Char.toLower]
    rw [if_pos ⟨h1, h2⟩]
  rw [he]
  generalize hgen : c.toNat = n at h1 h2
  interval_cases n <;> exact ⟨by decide, by decide⟩

/-- A character outside the basic latin capitals is fixed by
`Char.toLower`. -/
theorem toLower_eq_self (c : Char) (h : ¬(65 ≤ c.toNat ∧ c.toNat ≤ 90)) :
    Char.toLower c = c := by
  simp only [Char.toLower]
  rw [if_neg h]

/-- Lowercasing does not change whether a character is whitespace. -/
theorem isWhitespace_toLower (c : Char) :
    (Char.toLower c).isWhitespace = c.isWhitespace := by
  by_cases h : 65 ≤ c.toNat ∧ c.toNat ≤ 90
  · have hr := toLower_upper_range c h.1 h.2
    rw [isWhitespace_eq_false_of_ge (Char.toLower c) (by omega),
      isWhitespace_eq_false_of_ge c (by omega)]
  · rw [toLower_eq_self c h]

/-- Lowercasing a character twice is the same as lowercasing it once. -/
theorem toLower_idem (c : Char) :
    (Char.toLower c).toLower = Char.toLower c := by
  by_cases h : 65 ≤ c.toNat ∧ c.toNat ≤ 90
  · have hr := toLower_upper_range c h.1 h.2
    exact toLower_eq_self _ (by omega)
  · rw [toLower_eq_self c h]
    exact toLower_eq_self c h

/-- Lowercasing commutes with dropping leading whitespace. -/
theorem dropWhile_ws_pyLower (s : List Char) :
    (pyLower s).dropWhile Char.isWhitespace =
      pyLower (s.dropWhile Char.isWhitespace) := by
  induction s with
  | nil => rfl
  | cons a t ih =>
    simp only [pyLower, List.map_cons, List.dropWhile_cons,
      isWhitespace_toLower a]
    cases hw : a.isWhitespace with
    | true => simpa [pyLower] using ih
    | false => simp [pyLower]

/-- Lowercasing commutes with stripping. -/
theorem pyStrip_pyLower (s : List Char) :
    pyStrip (pyLower s) = pyLower (pyStrip s) := by
  unfold pyStrip
  rw [dropWhile_ws_pyLower]
  rw [show (pyLower (s.dropWhile Char.isWhitespace)).reverse =
      pyLower ((s.dropWhile Char.isWhitespace).reverse) by
    simp [pyLower]]
  rw [dropWhile_ws_pyLower]
  simp [pyLower]

/-- Lowercasing a string twice is the same as lowercasing it once. -/
theorem pyLower_idem (s : List Char) : pyLower (pyLower s) = pyLower s := by
  unfold pyLower
  rw [List.map_map]
  simp [Function.comp, toLower_idem]

/-- Strip-then-lowercase is invariant under lowercasing the raw text
first. -/
theorem parseField_lower (s : List Char) :
    pyLower (pyStrip (pyLower s)) = pyLower (pyStrip s) := by
  rw [pyStrip_pyLower, pyLower_idem]

/-- A positional pattern is unchanged by lowercasing the raw initial and
final entries first. -/
theorem parsePosReq_lower (rp : RawPosInput) :
    parsePosReq (lowerRawPos rp) = parsePosReq rp := by
  simp only [parsePosReq, lowerRawPos, parseField_lower]

/-- The `specific_reqs` dict is unchanged by lowercasing the raw initial
and final entries first. -/
theorem buildSpecific_lower :
    ∀ (i : Nat) (ps : List RawPosInput),
      buildSpecific i (ps.map lowerRawPos) = buildSpecific i ps
  | _, [] => rfl
  | i, rp :: rest => by
    simp only [List.map_cons, buildSpecific, parsePosReq_lower rp,
      buildSpecific_lower (i + 1) rest]

/-- The `exact_char_reqs` dict is unchanged by lowercasing the raw
initial and final entries first. -/
theorem buildExact_lower :
    ∀ (i : Nat) (ps : List RawPosInput),
      buildExact i (ps.map lowerRawPos) = buildExact i ps
  | _, [] => rfl
  | i, rp :: rest => by
    simp only [List.map_cons, buildExact, buildExact_lower (i + 1) rest]
    rfl

/-- The whole request is unchanged by lowercasing the raw initial and
final entries first. -/
theorem buildRequest_lower (raw : RawInputs) :
    buildRequest (lowerRaw raw) = buildRequest raw := by
  unfold buildRequest lowerRaw
  simp only [buildSpecific_lower, buildExact_lower, parseField_lower]

/-- C8 counterexample: the matcher compares constraint values literally —
a positional initial M, given to `word_matches` as-is, rejects a reading
whose initial is m, while the lowercase value accepts it. -/
theorem c8_counterexample :
    word_matches? pronM reqUpperM ['x'] = some false ∧
    word_matches? pronM reqLowerM ['x'] = some true := by decide

/-- C8 (amended): case-insensitivity for initial/final constraint values
is realised at request construction, not inside the matcher:
`search_words` lowercases (and strips) the entered initial and final text
while building the request, so lowercasing those raw entries changes
neither the built request nor any match result; tone entries are only
stripped and compared as literal digit strings, and `word_matches` itself
compares every field literally. -/
theorem c8_amended (raw : RawInputs) :
    buildRequest (lowerRaw raw) = buildRequest raw ∧
    ∀ (pron : Char → List (List Char)) (word : List Char),
      word_matches? pron (buildRequest (lowerRaw raw)) word =
        word_matches? pron (buildRequest raw) word := by
  have h : buildRequest (lowerRaw raw) = buildRequest raw :=
    buildRequest_lower raw
  exact ⟨h, fun pron word => by rw [h]⟩

end Guess
